import Mathlib

/-!
Verification of the page-tree mutation engine, world normalization, and
change-log reducer of the world_builder repository.  All definitions are
translated from the TypeScript sources (src/lib/models/pageTree.ts,
src/lib/models/worldChanges.ts, src/lib/models/worldTypes.ts, and the
world-normalization routines of the main page component).
-/

namespace WorldBuilder

/-- A node in the page forest (interface PageNode of worldTypes.ts).
`title`, `content` are required strings and `favorite` a required boolean,
exactly as in the TypeScript interface. -/
inductive PageNode where
  | mk (id title content : String) (favorite : Bool) (children : List PageNode)

def PageNode.id : PageNode → String
  | ⟨i, _, _, _, _⟩ => i

def PageNode.title : PageNode → String
  | ⟨_, t, _, _, _⟩ => t

def PageNode.content : PageNode → String
  | ⟨_, _, c, _, _⟩ => c

def PageNode.favorite : PageNode → Bool
  | ⟨_, _, _, f, _⟩ => f

def PageNode.children : PageNode → List PageNode
  | ⟨_, _, _, _, cs⟩ => cs

/-- Replace the children of a node, keeping its own fields
(models `cloned.children = result.nodes` on a spread copy). -/
def PageNode.withChildren : PageNode → List PageNode → PageNode
  | ⟨i, t, c, f, _⟩, cs => ⟨i, t, c, f, cs⟩

mutual

/-- `cloneNode` of pageTree.ts: a deep structural copy.  The id is kept;
no fresh id is assigned anywhere in this function.  The source maps
`cloneNode` over the children; the map is expressed by the mutually
recursive `cloneForest`. -/
def cloneNode : PageNode → PageNode
  | ⟨i, t, c, f, cs⟩ => ⟨i, t, c, f, cloneForest cs⟩

def cloneForest : List PageNode → List PageNode
  | [] => []
  | n :: rest => cloneNode n :: cloneForest rest

end

mutual

theorem cloneNode_id : ∀ (n : PageNode), cloneNode n = n
  | ⟨i, t, c, f, cs⟩ => by
    rw [cloneNode, cloneForest_id cs]

theorem cloneForest_id : ∀ (l : List PageNode), cloneForest l = l
  | [] => rfl
  | n :: rest => by
    rw [cloneForest, cloneNode_id n, cloneForest_id rest]

end

/-- `clonePageTree` of pageTree.ts. -/
def clonePageTree (nodes : List PageNode) : List PageNode := nodes.map cloneNode

theorem map_cloneNode_id (nodes : List PageNode) : nodes.map cloneNode = nodes := by
  induction nodes with
  | nil => rfl
  | cons n rest ih => simp [cloneNode_id n, ih]

theorem clonePageTree_id (nodes : List PageNode) : clonePageTree nodes = nodes :=
  map_cloneNode_id nodes

/-- `flattenPages` of pageTree.ts: pre-order traversal (the source pushes
each node into an accumulator and then visits its children; the resulting
order is node, its subtree, then the next sibling). -/
def flattenPages : List PageNode → List PageNode
  | [] => []
  | ⟨i, t, c, f, cs⟩ :: rest => ⟨i, t, c, f, cs⟩ :: (flattenPages cs ++ flattenPages rest)

/-- The ids of every node of a forest, in pre-order. -/
def forestIds (nodes : List PageNode) : List String := (flattenPages nodes).map PageNode.id

/-- `normalizePage` of pageTree.ts.  `generateId('page')` is impure; its result
is passed in as `gen`.  `page.id || generateId('page')` uses `||`, so the empty
string (the only falsy string) is replaced; `page.title ?? 'Untitled page'` and
`page.content ?? ''` use `??`, which fires only on null/undefined — impossible
for the required string fields of the PageNode interface — so title and content
are kept verbatim; `Boolean(page.favorite)` is the identity on a boolean. -/
def normalizePage (gen : String) (page : PageNode) : PageNode :=
  ⟨if page.id = "" then gen else page.id,
   page.title,
   page.content,
   page.favorite,
   page.children.map cloneNode⟩

/-- `insertIntoChildren` of pageTree.ts.  The source threads a mutable
`inserted` flag through a `map`: once an insertion happened, the remaining
nodes are merely cloned without further search. -/
def insertIntoChildren (gen parentId : String) (page : PageNode) :
    List PageNode → List PageNode × Bool
  | [] => ([], false)
  | ⟨i, t, c, f, cs⟩ :: rest =>
    if i = parentId then
      (⟨i, t, c, f, cs.map cloneNode ++ [normalizePage gen page]⟩ :: rest.map cloneNode, true)
    else
      let result := insertIntoChildren gen parentId page cs
      if result.2 then
        (⟨i, t, c, f, result.1⟩ :: rest.map cloneNode, true)
      else
        let tail := insertIntoChildren gen parentId page rest
        (cloneNode ⟨i, t, c, f, cs⟩ :: tail.1, tail.2)

/-- `addPageToTree` of pageTree.ts.  `if (!parentId)` treats both null and the
empty string as absent.  The page is normalized first and `insertIntoChildren`
normalizes again at the splice point, exactly as the source does. -/
def addPageToTree (gen : String) (nodes : List PageNode) (parentId : Option String)
    (page : PageNode) : List PageNode :=
  let normalized := normalizePage gen page
  match parentId with
  | none => nodes.map cloneNode ++ [normalized]
  | some pid =>
    if pid = "" then nodes.map cloneNode ++ [normalized]
    else
      let result := insertIntoChildren gen pid normalized nodes
      if result.2 then result.1 else nodes.map cloneNode ++ [normalized]

/-- The `'before' | 'after'` position argument of `insertRelative`. -/
inductive InsertPos where
  | before
  | after
deriving DecidableEq, Repr

/-- The loop body of `insertRelative` of pageTree.ts.  For each sibling the
source (1) inserts before the node when it matches and nothing was inserted
yet, (2) clones the node and recurses into its children with a fresh flag,
adopting the recursion's nodes when it inserted, (3) pushes the clone, and
(4) inserts after the node when it matches and nothing was inserted yet.
The recursion into children is attempted for every sibling, even after an
insertion already happened. -/
def insertRelativeGo (targetId : String) (normalized : PageNode) (pos : InsertPos) :
    List PageNode → Bool → List PageNode × Bool
  | [], ins => ([], ins)
  | ⟨i, t, c, f, cs⟩ :: rest, ins =>
    let pre : List PageNode × Bool :=
      if ins = false ∧ i = targetId ∧ pos = .before then ([normalized], true) else ([], ins)
    let result := insertRelativeGo targetId normalized pos cs false
    let step : PageNode × Bool :=
      if result.2 then (⟨i, t, c, f, result.1⟩, true)
      else (cloneNode ⟨i, t, c, f, cs⟩, pre.2)
    let post : List PageNode × Bool :=
      if step.2 = false ∧ i = targetId ∧ pos = .after then ([normalized], true) else ([], step.2)
    let tail := insertRelativeGo targetId normalized pos rest post.2
    (pre.1 ++ step.1 :: post.1 ++ tail.1, tail.2)

/-- `insertRelative` of pageTree.ts.  The source recomputes
`normalizePage(page)` at every recursion depth; the computation is pure, so it
is hoisted to a single `normalized`. -/
def insertRelative (gen : String) (nodes : List PageNode) (targetId : String)
    (page : PageNode) (pos : InsertPos) : List PageNode × Bool :=
  insertRelativeGo targetId (normalizePage gen page) pos nodes false

/-- `insertPageAfter` of pageTree.ts. -/
def insertPageAfter (gen : String) (nodes : List PageNode) (targetId : String)
    (page : PageNode) : List PageNode × Bool :=
  insertRelative gen nodes targetId page .after

/-- `insertPageBefore` of pageTree.ts. -/
def insertPageBefore (gen : String) (nodes : List PageNode) (targetId : String)
    (page : PageNode) : List PageNode × Bool :=
  insertRelative gen nodes targetId page .before

/-- `removePageFromTree` of pageTree.ts.  The mutable `removed` cell is
written by every match, so a later find overwrites an earlier one; nodes whose
id matches are dropped from the sibling list. -/
def removePageFromTree : List PageNode → String → List PageNode × Option PageNode
  | [], _ => ([], none)
  | ⟨i, t, c, f, cs⟩ :: rest, pageId =>
    let hd : List PageNode × Option PageNode :=
      if i = pageId then ([], some (cloneNode ⟨i, t, c, f, cs⟩))
      else
        let result := removePageFromTree cs pageId
        match result.2 with
        | some r => ([⟨i, t, c, f, result.1⟩], some r)
        | none => ([cloneNode ⟨i, t, c, f, cs⟩], none)
    let tl := removePageFromTree rest pageId
    (hd.1 ++ tl.1, match tl.2 with | some r => some r | none => hd.2)

/-- `updatePageInTree` of pageTree.ts: the updater is applied to the matching
node's own fields, its children are kept (cloned); every node whose id matches
is updated. -/
def updatePageInTree : List PageNode → String → (PageNode → PageNode) → List PageNode
  | [], _, _ => []
  | ⟨i, t, c, f, cs⟩ :: rest, pageId, updater =>
    (if i = pageId then
      (updater (cloneNode ⟨i, t, c, f, cs⟩)).withChildren (cs.map cloneNode)
    else
      ⟨i, t, c, f, updatePageInTree cs pageId updater⟩)
    :: updatePageInTree rest pageId updater

/-- Total number of nodes of a forest; the termination measure for the
stack-based subtree walk of `isDescendant`. -/
def forestSize : List PageNode → Nat
  | [] => 0
  | ⟨_, _, _, _, cs⟩ :: rest => 1 + forestSize cs + forestSize rest

theorem forestSize_append (l1 l2 : List PageNode) :
    forestSize (l1 ++ l2) = forestSize l1 + forestSize l2 := by
  induction l1 with
  | nil => simp [forestSize]
  | cons hd tl ih =>
    obtain ⟨i, t, c, f, cs⟩ := hd
    simp only [List.cons_append, forestSize, ih]
    omega

/-- The `while (stack.length)` loop inside `isDescendant` of pageTree.ts.
The source pops from and pushes the popped node's children onto the end of a
JS array; it is modeled at the head of the list, which changes only the visit
order, not the set of visited nodes or the boolean result. -/
def descendStack (candidateId : String) : List PageNode → Bool
  | [] => false
  | ⟨i, _, _, _, cs⟩ :: stack =>
    if i = candidateId then true else descendStack candidateId (cs ++ stack)
termination_by stack => forestSize stack
decreasing_by simp only [forestSize, forestSize_append]; omega

/-- `isDescendant` of pageTree.ts: the first sibling whose id matches
`parentId` is searched (its whole subtree, via the stack walk) and the result
for that node is returned immediately; otherwise children are recursed before
moving to the next sibling. -/
def isDescendant : List PageNode → String → String → Bool
  | [], _, _ => false
  | ⟨i, _, _, _, cs⟩ :: rest, parentId, candidateId =>
    if i = parentId then descendStack candidateId cs
    else isDescendant cs parentId candidateId || isDescendant rest parentId candidateId

/-- Splicing a node immediately before or after a matched sibling, at the
sibling's own depth. -/
def specSplice (pos : InsertPos) (norm node : PageNode) (rest : List PageNode) : List PageNode :=
  match pos with
  | .before => norm :: node :: rest
  | .after => node :: norm :: rest

/-- Modelled from the spec (§4.1): `insertBefore`/`insertAfter` "locates
`targetId` at any depth (siblings searched in order, children recursed before
moving to next sibling) and splices `node` immediately before/after it at the
same depth as the target"; returns none when the target is absent.  This is
the specification-side definition that `insertRelative` is compared with. -/
def specInsertRelative (targetId : String) (norm : PageNode) (pos : InsertPos) :
    List PageNode → Option (List PageNode)
  | [] => none
  | ⟨i, t, c, f, cs⟩ :: rest =>
    if i = targetId then
      some (specSplice pos norm ⟨i, t, c, f, cs⟩ rest)
    else
      match specInsertRelative targetId norm pos cs with
      | some cs' => some (⟨i, t, c, f, cs'⟩ :: rest)
      | none =>
        match specInsertRelative targetId norm pos rest with
        | some rest' => some (⟨i, t, c, f, cs⟩ :: rest')
        | none => none

theorem flattenPages_cons (i t c : String) (f : Bool) (cs rest : List PageNode) :
    flattenPages (⟨i, t, c, f, cs⟩ :: rest) =
      ⟨i, t, c, f, cs⟩ :: (flattenPages cs ++ flattenPages rest) := by
  simp [flattenPages]

theorem forestIds_cons (i t c : String) (f : Bool) (cs rest : List PageNode) :
    forestIds (⟨i, t, c, f, cs⟩ :: rest) = i :: (forestIds cs ++ forestIds rest) := by
  simp [forestIds, flattenPages_cons, PageNode.id]

theorem flattenPages_append (l1 l2 : List PageNode) :
    flattenPages (l1 ++ l2) = flattenPages l1 ++ flattenPages l2 := by
  induction l1 with
  | nil => simp [flattenPages]
  | cons hd tl ih =>
    obtain ⟨i, t, c, f, cs⟩ := hd
    simp [flattenPages_cons, ih]

theorem forestIds_append (l1 l2 : List PageNode) :
    forestIds (l1 ++ l2) = forestIds l1 ++ forestIds l2 := by
  simp [forestIds, flattenPages_append]

/-- When the target id occurs nowhere in the forest, the `insertRelative` loop
returns the forest unchanged with the incoming flag. -/
theorem insertRelativeGo_not_found (targetId : String) (norm : PageNode) (pos : InsertPos) :
    ∀ (nodes : List PageNode) (ins : Bool), targetId ∉ forestIds nodes →
      insertRelativeGo targetId norm pos nodes ins = (nodes, ins)
  | [], ins, _ => by simp [insertRelativeGo]
  | ⟨i, t, c, f, cs⟩ :: rest, ins, h => by
    rw [forestIds_cons] at h
    simp only [List.mem_cons, List.mem_append, not_or] at h
    obtain ⟨hne, hcs, hrest⟩ := h
    have hne' : ¬(i = targetId) := fun hh => hne hh.symm
    have hc := insertRelativeGo_not_found targetId norm pos cs false hcs
    have hr := insertRelativeGo_not_found targetId norm pos rest ins hrest
    simp [insertRelativeGo, hne', hc, hr, cloneNode_id]

/-- The specification-side insertion fails exactly when the target id is
absent from the forest. -/
theorem specInsertRelative_none_iff (targetId : String) (norm : PageNode) (pos : InsertPos) :
    ∀ (nodes : List PageNode),
      specInsertRelative targetId norm pos nodes = none ↔ targetId ∉ forestIds nodes
  | [] => by simp [specInsertRelative, forestIds, flattenPages]
  | ⟨i, t, c, f, cs⟩ :: rest => by
    have hc := specInsertRelative_none_iff targetId norm pos cs
    have hr := specInsertRelative_none_iff targetId norm pos rest
    rw [forestIds_cons]
    by_cases hi : i = targetId
    · subst hi
      simp [specInsertRelative]
    · simp only [specInsertRelative, hi, ite_false]
      have hti : ¬(targetId = i) := fun hh => hi hh.symm
      cases hcs : specInsertRelative targetId norm pos cs with
      | some cs' =>
        have hin : targetId ∈ forestIds cs := by
          by_contra hnin
          rw [← hc, hcs] at hnin
          exact Option.noConfusion hnin
        simp [hin, hti]
      | none =>
        have hnin : targetId ∉ forestIds cs := hc.mp hcs
        cases hrs : specInsertRelative targetId norm pos rest with
        | some rest' =>
          have hinr : targetId ∈ forestIds rest := by
            by_contra hninr
            rw [← hr, hrs] at hninr
            exact Option.noConfusion hninr
          simp [hinr]
        | none =>
          have hninr : targetId ∉ forestIds rest := hr.mp hrs
          simp [hnin, hninr, hti]

/-- With pairwise-distinct ids, the `insertRelative` loop computes exactly
the specification-side splice: the first pre-order occurrence of the target
receives the node immediately before/after it at its own depth, and an absent
target leaves the forest unchanged with `inserted = false`. -/
theorem insertRelativeGo_spec (targetId : String) (norm : PageNode) (pos : InsertPos) :
    ∀ (nodes : List PageNode), (forestIds nodes).Nodup →
      insertRelativeGo targetId norm pos nodes false =
        (match specInsertRelative targetId norm pos nodes with
         | some r => (r, true)
         | none => (nodes, false))
  | [], _ => by simp [insertRelativeGo, specInsertRelative]
  | ⟨i, t, c, f, cs⟩ :: rest, h => by
    rw [forestIds_cons] at h
    obtain ⟨hi_nin, happ⟩ := List.nodup_cons.mp h
    have hndcs : (forestIds cs).Nodup := happ.of_append_left
    have hndrest : (forestIds rest).Nodup := happ.of_append_right
    have hdisj := List.disjoint_of_nodup_append happ
    by_cases hi : i = targetId
    · subst hi
      have hcs_nin : i ∉ forestIds cs := fun hin => hi_nin (List.mem_append.mpr (Or.inl hin))
      have hrest_nin : i ∉ forestIds rest := fun hin => hi_nin (List.mem_append.mpr (Or.inr hin))
      have hcnf := insertRelativeGo_not_found i norm pos cs false hcs_nin
      have hr1 := insertRelativeGo_not_found i norm pos rest true hrest_nin
      cases pos with
      | before => simp [insertRelativeGo, specInsertRelative, specSplice, hcnf, hr1, cloneNode_id]
      | after => simp [insertRelativeGo, specInsertRelative, specSplice, hcnf, hr1, cloneNode_id]
    · have hi' : ¬(i = targetId) := hi
      cases hcs : specInsertRelative targetId norm pos cs with
      | some cs' =>
        have hin_cs : targetId ∈ forestIds cs := by
          by_contra hnin
          rw [← specInsertRelative_none_iff targetId norm pos cs, hcs] at hnin
          exact Option.noConfusion hnin
        have hrest_nin : targetId ∉ forestIds rest := fun hin => hdisj hin_cs hin
        have hcrec := insertRelativeGo_spec targetId norm pos cs hndcs
        rw [hcs] at hcrec
        have hr := insertRelativeGo_not_found targetId norm pos rest true hrest_nin
        simp [insertRelativeGo, specInsertRelative, hi', hcs, hcrec, hr, cloneNode_id]
      | none =>
        have hcs_nin : targetId ∉ forestIds cs :=
          (specInsertRelative_none_iff targetId norm pos cs).mp hcs
        have hcnf := insertRelativeGo_not_found targetId norm pos cs false hcs_nin
        cases hrs : specInsertRelative targetId norm pos rest with
        | some rest' =>
          have hrrec := insertRelativeGo_spec targetId norm pos rest hndrest
          rw [hrs] at hrrec
          simp [insertRelativeGo, specInsertRelative, hi', hcs, hrs, hcnf, hrrec, cloneNode_id]
        | none =>
          have hrest_nin : targetId ∉ forestIds rest :=
            (specInsertRelative_none_iff targetId norm pos rest).mp hrs
          have hr := insertRelativeGo_not_found targetId norm pos rest false hrest_nin
          simp [insertRelativeGo, specInsertRelative, hi', hcs, hrs, hcnf, hr, cloneNode_id]

/-- C5: `insertPageBefore`/`insertPageAfter` locate the target id at any depth
(siblings in order, children recursed before the next sibling) and splice the
normalized node immediately before/after the target at the target's depth,
returning `inserted = true`; if the target id is absent the input forest is
returned unchanged with `inserted = false`.  In particular
`insertPageAfter [a] "a" b = ([a, b], true)`. -/
theorem insertPage_before_after_spec (gen targetId : String) (page : PageNode)
    (nodes : List PageNode) (h : (forestIds nodes).Nodup) :
    (insertPageBefore gen nodes targetId page =
      (match specInsertRelative targetId (normalizePage gen page) .before nodes with
       | some r => (r, true)
       | none => (nodes, false))) ∧
    (insertPageAfter gen nodes targetId page =
      (match specInsertRelative targetId (normalizePage gen page) .after nodes with
       | some r => (r, true)
       | none => (nodes, false))) ∧
    (targetId ∉ forestIds nodes →
      insertPageBefore gen nodes targetId page = (nodes, false) ∧
      insertPageAfter gen nodes targetId page = (nodes, false)) ∧
    insertPageAfter gen [⟨"a", "", "", false, []⟩] "a" ⟨"b", "", "", false, []⟩ =
      ([⟨"a", "", "", false, []⟩, ⟨"b", "", "", false, []⟩], true) := by
  refine ⟨?_, ?_, ?_, ?_⟩
  · exact insertRelativeGo_spec targetId (normalizePage gen page) .before nodes h
  · exact insertRelativeGo_spec targetId (normalizePage gen page) .after nodes h
  · intro hnin
    exact ⟨insertRelativeGo_not_found targetId (normalizePage gen page) .before nodes false hnin,
           insertRelativeGo_not_found targetId (normalizePage gen page) .after nodes false hnin⟩
  · simp [insertPageAfter, insertRelative, insertRelativeGo, normalizePage, cloneNode, cloneForest,
      PageNode.id, PageNode.title, PageNode.content, PageNode.favorite, PageNode.children]

theorem insertPage_before_after_spec_witness :
    (forestIds [(⟨"a", "", "", false, []⟩ : PageNode)]).Nodup ∧
    ((insertPageBefore "g" [⟨"a", "", "", false, []⟩] "a" ⟨"b", "", "", false, []⟩ =
      (match specInsertRelative "a" (normalizePage "g" ⟨"b", "", "", false, []⟩)
          .before [⟨"a", "", "", false, []⟩] with
       | some r => (r, true)
       | none => ([⟨"a", "", "", false, []⟩], false))) ∧
    (insertPageAfter "g" [⟨"a", "", "", false, []⟩] "a" ⟨"b", "", "", false, []⟩ =
      (match specInsertRelative "a" (normalizePage "g" ⟨"b", "", "", false, []⟩)
          .after [⟨"a", "", "", false, []⟩] with
       | some r => (r, true)
       | none => ([⟨"a", "", "", false, []⟩], false))) ∧
    ("a" ∉ forestIds [(⟨"a", "", "", false, []⟩ : PageNode)] →
      insertPageBefore "g" [⟨"a", "", "", false, []⟩] "a" ⟨"b", "", "", false, []⟩ =
        ([⟨"a", "", "", false, []⟩], false) ∧
      insertPageAfter "g" [⟨"a", "", "", false, []⟩] "a" ⟨"b", "", "", false, []⟩ =
        ([⟨"a", "", "", false, []⟩], false)) ∧
    insertPageAfter "g" [⟨"a", "", "", false, []⟩] "a" ⟨"b", "", "", false, []⟩ =
      ([⟨"a", "", "", false, []⟩, ⟨"b", "", "", false, []⟩], true)) :=
  ⟨by simp [forestIds, flattenPages, PageNode.id],
   insertPage_before_after_spec "g" "a" ⟨"b", "", "", false, []⟩ [⟨"a", "", "", false, []⟩]
     (by simp [forestIds, flattenPages, PageNode.id])⟩

/-- The stack walk of `isDescendant` finds exactly the ids occurring in the
forests on the stack. -/
theorem descendStack_iff (c : String) :
    ∀ (stack : List PageNode), descendStack c stack = true ↔ c ∈ forestIds stack
  | [] => by simp [descendStack, forestIds, flattenPages]
  | ⟨i, t, co, f, cs⟩ :: stack => by
    have ih := descendStack_iff c (cs ++ stack)
    rw [forestIds_append] at ih
    by_cases hic : i = c
    · subst hic
      simp [descendStack, forestIds_cons]
    · have hci : ¬(c = i) := fun hh => hic hh.symm
      simp [descendStack, hic, ih, forestIds_cons, hci]
termination_by stack => forestSize stack
decreasing_by simp only [forestSize, forestSize_append]; omega

theorem mem_flattenPages_id {F : List PageNode} {n : PageNode} (h : n ∈ flattenPages F) :
    n.id ∈ forestIds F := List.mem_map_of_mem PageNode.id h

/-- Every node of the subtree below a node of a forest is itself a node of the
forest. -/
theorem flattenPages_children_subset :
    ∀ (F : List PageNode) (n : PageNode), n ∈ flattenPages F →
      ∀ m ∈ flattenPages n.children, m ∈ flattenPages F
  | [], n, h => by simp [flattenPages] at h
  | ⟨i, t, c, f, cs⟩ :: rest, n, h => by
    intro m hm
    rw [flattenPages_cons] at h ⊢
    rcases List.mem_cons.mp h with h1 | h2
    · subst h1
      simp only [PageNode.children] at hm
      exact List.mem_cons.mpr (Or.inr (List.mem_append.mpr (Or.inl hm)))
    · rcases List.mem_append.mp h2 with h3 | h4
      · have := flattenPages_children_subset cs n h3 m hm
        exact List.mem_cons.mpr (Or.inr (List.mem_append.mpr (Or.inl this)))
      · have := flattenPages_children_subset rest n h4 m hm
        exact List.mem_cons.mpr (Or.inr (List.mem_append.mpr (Or.inr this)))

/-- Under pairwise-distinct ids, `isDescendant F a x` holds exactly when `x`
occurs strictly inside the subtree rooted at the node with id `a`. -/
theorem isDescendant_iff :
    ∀ (F : List PageNode), (forestIds F).Nodup → ∀ (a x : String),
      (isDescendant F a x = true ↔
        ∃ n, n ∈ flattenPages F ∧ n.id = a ∧ x ∈ forestIds n.children)
  | [], _, a, x => by simp [isDescendant, flattenPages]
  | ⟨i, t, c, f, cs⟩ :: rest, h, a, x => by
    rw [forestIds_cons] at h
    obtain ⟨hi_nin, happ⟩ := List.nodup_cons.mp h
    have hndcs : (forestIds cs).Nodup := happ.of_append_left
    have hndrest : (forestIds rest).Nodup := happ.of_append_right
    by_cases hia : i = a
    · subst hia
      rw [show isDescendant (⟨i, t, c, f, cs⟩ :: rest) i x = descendStack x cs by
            simp [isDescendant]]
      rw [descendStack_iff x cs]
      constructor
      · intro hx
        exact ⟨⟨i, t, c, f, cs⟩, by rw [flattenPages_cons]; exact List.mem_cons_self _ _, rfl, by
          simpa [PageNode.children] using hx⟩
      · rintro ⟨n, hn, hid, hx⟩
        rw [flattenPages_cons] at hn
        rcases List.mem_cons.mp hn with h1 | h2
        · subst h1
          simpa [PageNode.children] using hx
        · exfalso
          rcases List.mem_append.mp h2 with h3 | h4
          · exact hi_nin (List.mem_append.mpr (Or.inl (hid ▸ mem_flattenPages_id h3)))
          · exact hi_nin (List.mem_append.mpr (Or.inr (hid ▸ mem_flattenPages_id h4)))
    · rw [show isDescendant (⟨i, t, c, f, cs⟩ :: rest) a x
            = (isDescendant cs a x || isDescendant rest a x) by simp [isDescendant, hia]]
      rw [flattenPages_cons]
      simp only [Bool.or_eq_true, isDescendant_iff cs hndcs a x,
        isDescendant_iff rest hndrest a x]
      constructor
      · rintro (⟨n, hn, hid, hx⟩ | ⟨n, hn, hid, hx⟩)
        · exact ⟨n, List.mem_cons.mpr (Or.inr (List.mem_append.mpr (Or.inl hn))), hid, hx⟩
        · exact ⟨n, List.mem_cons.mpr (Or.inr (List.mem_append.mpr (Or.inr hn))), hid, hx⟩
      · rintro ⟨n, hn, hid, hx⟩
        rcases List.mem_cons.mp hn with h1 | h2
        · exfalso
          apply hia
          rw [← hid, h1]
          rfl
        · rcases List.mem_append.mp h2 with h3 | h4
          · exact Or.inl ⟨n, h3, hid, hx⟩
          · exact Or.inr ⟨n, h4, hid, hx⟩

/-- Transitivity of `isDescendant` on forests with pairwise-distinct ids. -/
theorem isDescendant_trans (F : List PageNode) (h : (forestIds F).Nodup) (a b c : String)
    (hab : isDescendant F a b = true) (hbc : isDescendant F b c = true) :
    isDescendant F a c = true := by
  rw [isDescendant_iff F h] at hab hbc ⊢
  obtain ⟨na, hna, hida, hb⟩ := hab
  obtain ⟨nb, hnb, hidb, hc⟩ := hbc
  have hmap : forestIds na.children = (flattenPages na.children).map PageNode.id := rfl
  rw [hmap] at hb
  obtain ⟨nb', hnb', hid'⟩ := List.mem_map.mp hb
  have hnb'F : nb' ∈ flattenPages F := flattenPages_children_subset F na hna nb' hnb'
  have hinj := List.inj_on_of_nodup_map (f := PageNode.id) (l := flattenPages F) h
  have heq : nb = nb' := hinj hnb hnb'F (by rw [hidb, hid'])
  subst heq
  rw [show forestIds nb.children = (flattenPages nb.children).map PageNode.id from rfl] at hc
  obtain ⟨nc, hnc, hidc⟩ := List.mem_map.mp hc
  have hncna : nc ∈ flattenPages na.children :=
    flattenPages_children_subset na.children nb hnb' nc hnc
  exact ⟨na, hna, hida, by
    rw [hmap]
    exact List.mem_map.mpr ⟨nc, hncna, hidc⟩⟩

/-- C8: on a forest with pairwise-distinct node ids, `isDescendant` is
transitive, and `isDescendant F a x` holds exactly when `x` appears strictly
inside the subtree rooted at the node with id `a` (the ancestor itself
excluded). -/
theorem isDescendant_transitive_and_subtree (F : List PageNode)
    (h : (forestIds F).Nodup) :
    (∀ a b c, isDescendant F a b = true → isDescendant F b c = true →
      isDescendant F a c = true) ∧
    (∀ a x, isDescendant F a x = true ↔
      ∃ n, n ∈ flattenPages F ∧ n.id = a ∧ x ∈ forestIds n.children) :=
  ⟨fun a b c hab hbc => isDescendant_trans F h a b c hab hbc,
   fun a x => isDescendant_iff F h a x⟩

theorem isDescendant_transitive_and_subtree_witness :
    (forestIds [(⟨"a", "", "", false, [⟨"b", "", "", false, [⟨"c", "", "", false, []⟩]⟩]⟩ :
      PageNode)]).Nodup ∧
    ((∀ a b c, isDescendant [(⟨"a", "", "", false,
        [⟨"b", "", "", false, [⟨"c", "", "", false, []⟩]⟩]⟩ : PageNode)] a b = true →
      isDescendant [(⟨"a", "", "", false,
        [⟨"b", "", "", false, [⟨"c", "", "", false, []⟩]⟩]⟩ : PageNode)] b c = true →
      isDescendant [(⟨"a", "", "", false,
        [⟨"b", "", "", false, [⟨"c", "", "", false, []⟩]⟩]⟩ : PageNode)] a c = true) ∧
    (∀ a x, isDescendant [(⟨"a", "", "", false,
        [⟨"b", "", "", false, [⟨"c", "", "", false, []⟩]⟩]⟩ : PageNode)] a x = true ↔
      ∃ n, n ∈ flattenPages [(⟨"a", "", "", false,
        [⟨"b", "", "", false, [⟨"c", "", "", false, []⟩]⟩]⟩ : PageNode)] ∧
        n.id = a ∧ x ∈ forestIds n.children)) :=
  ⟨by simp [forestIds, flattenPages, PageNode.id],
   isDescendant_transitive_and_subtree
     [⟨"a", "", "", false, [⟨"b", "", "", false, [⟨"c", "", "", false, []⟩]⟩]⟩]
     (by simp [forestIds, flattenPages, PageNode.id])⟩

/-- C1 (amended): flattening the clone of a forest yields exactly the same
node sequence — same length, position-wise equal title, content, favorite,
and also the same id: `clonePageTree` is a deep copy that keeps every id and
assigns no fresh ones. -/
theorem flattenPages_clonePageTree (F : List PageNode) :
    flattenPages (clonePageTree F) = flattenPages F := by
  rw [clonePageTree_id]

/-- C1 counterexample: at the one-node forest `[{id := "a"}]`, flatten-of-clone
does not differ from flatten in any position's id, refuting the claim that
every node's id differs from the corresponding source node's id. -/
theorem clone_fresh_ids_counterexample :
    ¬ List.Forall₂
        (fun x y : PageNode =>
          x.title = y.title ∧ x.content = y.content ∧ x.favorite = y.favorite ∧ x.id ≠ y.id)
        (flattenPages (clonePageTree [⟨"a", "t", "c", false, []⟩]))
        (flattenPages [⟨"a", "t", "c", false, []⟩]) := by
  intro h
  rw [clonePageTree_id] at h
  have he : flattenPages [(⟨"a", "t", "c", false, []⟩ : PageNode)] =
      [⟨"a", "t", "c", false, []⟩] := by simp [flattenPages]
  rw [he] at h
  rcases h with _ | ⟨⟨_, _, _, hne⟩, _⟩
  exact hne rfl

/-- C7 (amended): insertion stores the page's title verbatim — the
`?? 'Untitled page'` default in `normalizePage` fires only on a null or
undefined title, which the PageNode interface rules out; an empty-string title
is preserved, not replaced. -/
theorem normalizePage_title_preserved (gen : String) (nodes : List PageNode) (page : PageNode) :
    (normalizePage gen page).title = page.title ∧
    addPageToTree gen nodes none page = nodes ++ [normalizePage gen page] := by
  constructor
  · obtain ⟨i, t, c, f, cs⟩ := page
    simp [normalizePage, PageNode.title]
  · simp [addPageToTree, map_cloneNode_id]

/-- C7 counterexample: adding a page whose title is the empty string stores it
with the empty title, not with "Untitled page". -/
theorem empty_title_not_defaulted_counterexample :
    ¬ (∀ n ∈ addPageToTree "g" [] none (⟨"x", "", "c", false, []⟩ : PageNode),
        n.title = "Untitled page") := by
  intro h
  have hmem : (⟨"x", "", "c", false, []⟩ : PageNode) ∈
      addPageToTree "g" [] none (⟨"x", "", "c", false, []⟩ : PageNode) := by
    simp [addPageToTree, normalizePage, PageNode.id, PageNode.title, PageNode.content,
      PageNode.favorite, PageNode.children]
  have := h _ hmem
  simp [PageNode.title] at this

/-- When the parent id occurs nowhere in the forest, `insertIntoChildren`
reports no insertion and returns the forest unchanged. -/
theorem insertIntoChildren_not_found (gen parentId : String) (page : PageNode) :
    ∀ (nodes : List PageNode), parentId ∉ forestIds nodes →
      insertIntoChildren gen parentId page nodes = (nodes, false)
  | [], _ => by simp [insertIntoChildren]
  | ⟨i, t, c, f, cs⟩ :: rest, h => by
    rw [forestIds_cons] at h
    simp only [List.mem_cons, List.mem_append, not_or] at h
    obtain ⟨hne, hcs, hrest⟩ := h
    have hne2 : ¬(i = parentId) := fun hh => hne hh.symm
    have hc := insertIntoChildren_not_found gen parentId page cs hcs
    have hr := insertIntoChildren_not_found gen parentId page rest hrest
    simp [insertIntoChildren, hne2, hc, hr, cloneNode_id]

/-- C9: `addPageToTree` appends the normalized page as the last root both when
no parent id is given and when the given parent id is absent from the forest —
the page is never dropped. -/
theorem addPageToTree_fallback (gen : String) (nodes : List PageNode) (page : PageNode) :
    (addPageToTree gen nodes none page = nodes ++ [normalizePage gen page]) ∧
    (∀ pid, pid ∉ forestIds nodes →
      addPageToTree gen nodes (some pid) page = nodes ++ [normalizePage gen page]) := by
  constructor
  · simp [addPageToTree, map_cloneNode_id]
  · intro pid hnin
    by_cases hp : pid = ""
    · subst hp
      simp [addPageToTree, map_cloneNode_id]
    · have hnf := insertIntoChildren_not_found gen pid (normalizePage gen page) nodes hnin
      simp [addPageToTree, hp, hnf, map_cloneNode_id]

theorem addPageToTree_fallback_witness :
    (addPageToTree "g" [(⟨"a", "", "", false, []⟩ : PageNode)] none ⟨"b", "t", "", false, []⟩ =
      [⟨"a", "", "", false, []⟩] ++ [normalizePage "g" ⟨"b", "t", "", false, []⟩]) ∧
    ("zz" ∉ forestIds [(⟨"a", "", "", false, []⟩ : PageNode)]) ∧
    (addPageToTree "g" [(⟨"a", "", "", false, []⟩ : PageNode)] (some "zz")
        ⟨"b", "t", "", false, []⟩ =
      [⟨"a", "", "", false, []⟩] ++ [normalizePage "g" ⟨"b", "t", "", false, []⟩]) :=
  ⟨(addPageToTree_fallback "g" [⟨"a", "", "", false, []⟩] ⟨"b", "t", "", false, []⟩).1,
   by simp [forestIds, flattenPages, PageNode.id],
   (addPageToTree_fallback "g" [⟨"a", "", "", false, []⟩] ⟨"b", "t", "", false, []⟩).2 "zz"
     (by simp [forestIds, flattenPages, PageNode.id])⟩

/-- `CollaboratorRole` of worldTypes.ts. -/
inductive CollaboratorRole where
  | Owner
  | Editor
  | Viewer
deriving DecidableEq, Repr

/-- `WorldCollaborator` of worldTypes.ts. -/
structure WorldCollaborator where
  id : String
  name : String
  email : String
  role : CollaboratorRole
  avatarColor : String
deriving DecidableEq, Repr

/-- `ActivityAction` of worldTypes.ts. -/
inductive ActivityAction where
  | create
  | update
  | duplicate
  | delete
  | move
  | share
deriving DecidableEq, Repr

/-- `ActivityEntry` of worldTypes.ts; `context` is the only optional field. -/
structure ActivityEntry where
  id : String
  action : ActivityAction
  target : String
  context : Option String
  actorId : String
  actorName : String
  timestamp : String
deriving DecidableEq, Repr

/-- `World` of worldTypes.ts; `description`, `createdAt`, `updatedAt` are
optional. -/
@[ext]
structure World where
  id : String
  name : String
  ownerId : String
  pages : List PageNode
  collaborators : List WorldCollaborator
  activity : List ActivityEntry
  description : Option String
  createdAt : Option String
  updatedAt : Option String

/-- `ACTIVITY_LIMIT` of worldTypes.ts. -/
def ACTIVITY_LIMIT : Nat := 40

/-- The payload of an `updateWorld` change:
`Partial<Pick<World, 'name' | 'ownerId' | 'description'>>`. -/
structure WorldUpdateData where
  name : Option String
  ownerId : Option String
  description : Option String

/-- The payload of an `updatePage` change:
`Partial<Pick<PageNode, 'title' | 'content' | 'favorite'>>`. -/
structure PageUpdateData where
  title : Option String
  content : Option String
  favorite : Option Bool

/-- The `WorldChange` tagged union of worldChanges.ts. -/
inductive WorldChange where
  | createWorld (world : World)
  | updateWorld (worldId : String) (data : WorldUpdateData)
  | deleteWorld (worldId : String)
  | insertPage (worldId : String) (parentId : Option String) (page : PageNode)
  | updatePage (worldId pageId : String) (data : PageUpdateData)
  | removePage (worldId pageId : String)
  | movePage (worldId pageId targetId : String) (position : InsertPos)
  | appendActivity (worldId : String) (entries : List ActivityEntry)
  | setCollaborators (worldId : String) (collaborators : List WorldCollaborator)

/-- `cloneWorld` of worldChanges.ts.  The `?? []` fallbacks are dead for the
required list fields; the collaborator/activity spread copies rebuild each
record field by field. -/
def cloneWorld (world : World) : World :=
  { world with
    pages := clonePageTree world.pages,
    collaborators := world.collaborators.map
      (fun c => ⟨c.id, c.name, c.email, c.role, c.avatarColor⟩),
    activity := world.activity.map
      (fun e => ⟨e.id, e.action, e.target, e.context, e.actorId, e.actorName, e.timestamp⟩) }

/-- `sanitizeActivityEntry` of worldChanges.ts.  `entry.timestamp` is a
required string of the ActivityEntry interface, so the
`?? new Date().toISOString()` fallback is dead; the record is rebuilt field by
field. -/
def sanitizeActivityEntry (entry : ActivityEntry) : ActivityEntry :=
  ⟨entry.id, entry.action, entry.target, entry.context, entry.actorId, entry.actorName,
   entry.timestamp⟩

/-- `withUpdatedWorld` of worldChanges.ts. -/
def withUpdatedWorld (worlds : List World) (worldId : String) (updater : World → World) :
    List World :=
  worlds.map (fun world => if world.id = worldId then updater world else world)

/-- One iteration of the `switch` inside `applyWorldChanges` of
worldChanges.ts.  `generateId` (used only when an inserted page has a falsy
id) is passed in as `gen`. -/
def applyChange (gen : String) (worlds : List World) : WorldChange → List World
  | .createWorld world =>
    let newWorld := cloneWorld world
    worlds.filter (fun w => w.id != newWorld.id) ++ [newWorld]
  | .updateWorld worldId data =>
    withUpdatedWorld worlds worldId (fun world =>
      { world with
        name := data.name.getD world.name,
        ownerId := data.ownerId.getD world.ownerId,
        description := match data.description with
          | some d => some d
          | none => world.description })
  | .deleteWorld worldId => worlds.filter (fun w => w.id != worldId)
  | .insertPage worldId parentId page =>
    withUpdatedWorld worlds worldId (fun world =>
      { world with pages := addPageToTree gen world.pages parentId page })
  | .updatePage worldId pageId data =>
    withUpdatedWorld worlds worldId (fun world =>
      { world with pages := updatePageInTree world.pages pageId (fun page =>
          ⟨page.id, data.title.getD page.title, data.content.getD page.content,
           data.favorite.getD page.favorite, page.children⟩) })
  | .removePage worldId pageId =>
    withUpdatedWorld worlds worldId (fun world =>
      { world with pages := (removePageFromTree world.pages pageId).1 })
  | .movePage worldId pageId targetId position =>
    withUpdatedWorld worlds worldId (fun world =>
      match removePageFromTree world.pages pageId with
      | (_, none) => world
      | (nodes, some page) =>
        let ins := insertRelativeGo targetId (normalizePage gen page) position nodes false
        { world with pages := if ins.2 then ins.1 else nodes ++ [page] })
  | .appendActivity worldId entries =>
    withUpdatedWorld worlds worldId (fun world =>
      { world with
        activity := ((entries.map sanitizeActivityEntry) ++ world.activity).take ACTIVITY_LIMIT })
  | .setCollaborators worldId collaborators =>
    withUpdatedWorld worlds worldId (fun world =>
      { world with collaborators :=
          collaborators.map (fun c => ⟨c.id, c.name, c.email, c.role, c.avatarColor⟩) })

/-- `applyWorldChanges` of worldChanges.ts: every input world is deep-cloned
first, then the changes are folded strictly in list order. -/
def applyWorldChanges (gen : String) (worlds : List World) (changes : List WorldChange) :
    List World :=
  changes.foldl (applyChange gen) (worlds.map cloneWorld)

theorem cloneWorld_id (w : World) : cloneWorld w = w := by
  have h1 : w.collaborators.map
      (fun c => (⟨c.id, c.name, c.email, c.role, c.avatarColor⟩ : WorldCollaborator)) =
      w.collaborators := by
    rw [show (fun c : WorldCollaborator =>
      (⟨c.id, c.name, c.email, c.role, c.avatarColor⟩ : WorldCollaborator)) = id from rfl]
    exact List.map_id _
  have h2 : w.activity.map
      (fun e => (⟨e.id, e.action, e.target, e.context, e.actorId, e.actorName,
        e.timestamp⟩ : ActivityEntry)) = w.activity := by
    rw [show (fun e : ActivityEntry =>
      (⟨e.id, e.action, e.target, e.context, e.actorId, e.actorName,
        e.timestamp⟩ : ActivityEntry)) = id from rfl]
    exact List.map_id _
  simp only [cloneWorld, clonePageTree_id, h1, h2]

theorem map_cloneWorld_id (ws : List World) : ws.map cloneWorld = ws := by
  rw [show cloneWorld = id from funext cloneWorld_id]
  exact List.map_id _

/-- C3: the reducer folds changes strictly in list order, so applying a
concatenated change list equals applying the two lists in sequence. -/
theorem applyWorldChanges_append (gen : String) (ws : List World)
    (c1 c2 : List WorldChange) :
    applyWorldChanges gen ws (c1 ++ c2) =
      applyWorldChanges gen (applyWorldChanges gen ws c1) c2 := by
  simp [applyWorldChanges, map_cloneWorld_id, List.foldl_append]

/-- C10: a `createWorld` change removes any existing world with the same id
and appends the new world at the end; every other world keeps its relative
order, and the replacement does not keep the replaced world's position. -/
theorem applyWorldChanges_createWorld_replaces (gen : String) (ws : List World) (w : World)
    (h : ∃ v ∈ ws, v.id = w.id) :
    applyWorldChanges gen ws [WorldChange.createWorld w] =
      ws.filter (fun v => v.id != w.id) ++ [w] := by
  simp [applyWorldChanges, map_cloneWorld_id, applyChange, cloneWorld_id]

/-- A sample world used by concrete witnesses. -/
def exWorld (i n : String) (acts : List ActivityEntry) : World :=
  ⟨i, n, "u", [], [], acts, none, none, none⟩

/-- A sample activity entry used by concrete witnesses. -/
def exEntry : ActivityEntry := ⟨"e1", .create, "T", none, "u", "U", "2024-01-01"⟩

theorem applyWorldChanges_createWorld_replaces_witness :
    (∃ v ∈ [exWorld "w1" "first" [], exWorld "w2" "second" []],
      v.id = (exWorld "w1" "replacement" []).id) ∧
    applyWorldChanges "g" [exWorld "w1" "first" [], exWorld "w2" "second" []]
        [WorldChange.createWorld (exWorld "w1" "replacement" [])] =
      [exWorld "w1" "first" [], exWorld "w2" "second" []].filter
          (fun v => v.id != (exWorld "w1" "replacement" []).id) ++
        [exWorld "w1" "replacement" []] :=
  ⟨⟨exWorld "w1" "first" [], by simp, rfl⟩,
   applyWorldChanges_createWorld_replaces "g" _ _
     ⟨exWorld "w1" "first" [], by simp, rfl⟩⟩

/-- Whether a change is an `appendActivity` change. -/
def WorldChange.isAppendActivity : WorldChange → Bool
  | .appendActivity _ _ => true
  | _ => false

/-- One `appendActivity` step keeps every world's activity within the cap. -/
theorem applyChange_appendActivity_cap (gen : String) (ws : List World) (c : WorldChange)
    (hc : c.isAppendActivity = true) (h : ∀ w ∈ ws, w.activity.length ≤ ACTIVITY_LIMIT) :
    ∀ w ∈ applyChange gen ws c, w.activity.length ≤ ACTIVITY_LIMIT := by
  cases c with
  | appendActivity wid entries =>
    intro w hw
    simp only [applyChange, withUpdatedWorld, List.mem_map] at hw
    obtain ⟨v, hv, heq⟩ := hw
    by_cases hvid : v.id = wid
    · rw [← heq]
      simp [hvid, List.length_take]
    · rw [← heq]
      simp only [hvid, ite_false]
      exact h v hv
  | createWorld w => simp [WorldChange.isAppendActivity] at hc
  | updateWorld a b => simp [WorldChange.isAppendActivity] at hc
  | deleteWorld a => simp [WorldChange.isAppendActivity] at hc
  | insertPage a b p => simp [WorldChange.isAppendActivity] at hc
  | updatePage a b d => simp [WorldChange.isAppendActivity] at hc
  | removePage a b => simp [WorldChange.isAppendActivity] at hc
  | movePage a b t p => simp [WorldChange.isAppendActivity] at hc
  | setCollaborators a b => simp [WorldChange.isAppendActivity] at hc

/-- Folding `appendActivity` changes preserves the cap. -/
theorem foldl_appendActivity_cap (gen : String) :
    ∀ (cs : List WorldChange) (ws : List World),
      (∀ c ∈ cs, c.isAppendActivity = true) →
      (∀ w ∈ ws, w.activity.length ≤ ACTIVITY_LIMIT) →
      ∀ w ∈ cs.foldl (applyChange gen) ws, w.activity.length ≤ ACTIVITY_LIMIT
  | [], ws, _, h => by simpa using h
  | c :: cs, ws, hall, h => by
    rw [List.foldl_cons]
    exact foldl_appendActivity_cap gen cs (applyChange gen ws c)
      (fun x hx => hall x (List.mem_cons.mpr (Or.inr hx)))
      (applyChange_appendActivity_cap gen ws c (hall c (List.mem_cons.mpr (Or.inl rfl))) h)

/-- C4 (amended): starting from worlds whose activity is within the cap,
after any sequence of `appendActivity` changes every world's activity has
length at most 40, and when the last change appends a nonempty batch, the
batch's first entry sits at index 0 of every world bearing the target id. -/
theorem appendActivity_cap_and_head (gen : String) (ws : List World) (cs : List WorldChange)
    (h1 : ∀ w ∈ ws, w.activity.length ≤ ACTIVITY_LIMIT)
    (h2 : ∀ c ∈ cs, c.isAppendActivity = true) :
    (∀ w ∈ applyWorldChanges gen ws cs, w.activity.length ≤ ACTIVITY_LIMIT) ∧
    (∀ (cs' : List WorldChange) (wid : String) (entries : List ActivityEntry)
        (e0 : ActivityEntry),
      cs = cs' ++ [WorldChange.appendActivity wid entries] → entries.head? = some e0 →
      ∀ w ∈ applyWorldChanges gen ws cs, w.id = wid →
        w.activity.head? = some (sanitizeActivityEntry e0)) := by
  constructor
  · intro w hw
    rw [applyWorldChanges] at hw
    exact foldl_appendActivity_cap gen cs (ws.map cloneWorld) h2
      (by rw [map_cloneWorld_id]; exact h1) w hw
  · intro cs' wid entries e0 hcs hhead w hw hid
    subst hcs
    rw [applyWorldChanges, List.foldl_append, List.foldl_cons, List.foldl_nil] at hw
    cases entries with
    | nil => simp at hhead
    | cons a l =>
      have ha : a = e0 := by simpa using hhead
      subst ha
      simp only [applyChange, withUpdatedWorld, List.mem_map] at hw
      obtain ⟨v, hv, heq⟩ := hw
      by_cases hvid : v.id = wid
      · rw [← heq]
        simp only [hvid, ite_true]
        simp only [List.map_cons, List.cons_append]
        rfl
      · exfalso
        rw [← heq] at hid
        simp only [hvid, ite_false] at hid

theorem appendActivity_cap_and_head_witness :
    (∀ w ∈ [exWorld "w1" "n" []], w.activity.length ≤ ACTIVITY_LIMIT) ∧
    (∀ c ∈ [WorldChange.appendActivity "w1" [exEntry]], c.isAppendActivity = true) ∧
    ((∀ w ∈ applyWorldChanges "g" [exWorld "w1" "n" []]
        [WorldChange.appendActivity "w1" [exEntry]],
      w.activity.length ≤ ACTIVITY_LIMIT) ∧
    (∀ (cs' : List WorldChange) (wid : String) (entries : List ActivityEntry)
        (e0 : ActivityEntry),
      [WorldChange.appendActivity "w1" [exEntry]] =
          cs' ++ [WorldChange.appendActivity wid entries] →
      entries.head? = some e0 →
      ∀ w ∈ applyWorldChanges "g" [exWorld "w1" "n" []]
          [WorldChange.appendActivity "w1" [exEntry]],
        w.id = wid → w.activity.head? = some (sanitizeActivityEntry e0))) :=
  ⟨by simp [exWorld, ACTIVITY_LIMIT],
   by simp [WorldChange.isAppendActivity],
   appendActivity_cap_and_head "g" _ _
     (by simp [exWorld, ACTIVITY_LIMIT])
     (by simp [WorldChange.isAppendActivity])⟩

/-- C4 counterexample: with a world whose activity already exceeds the cap and
the empty (hence all-`appendActivity`) change list, the reducer's output
violates the claimed bound, refuting the claim for arbitrary world lists. -/
theorem activity_cap_counterexample :
    ¬ (∀ w ∈ applyWorldChanges "g" [exWorld "w1" "n" (List.replicate 41 exEntry)] [],
        w.activity.length ≤ ACTIVITY_LIMIT) := by
  intro h
  have hmem : exWorld "w1" "n" (List.replicate 41 exEntry) ∈
      applyWorldChanges "g" [exWorld "w1" "n" (List.replicate 41 exEntry)] [] := by
    rw [applyWorldChanges, List.foldl_nil, map_cloneWorld_id]
    simp
  have := h _ hmem
  simp [exWorld, ACTIVITY_LIMIT] at this

/-- `getAvatarColor` of worldTypes.ts.  `charCodeAt` coincides with the
character code for the ASCII identifiers involved; the hash stays below the
palette length at every step, so `Math.abs` is the identity. -/
def getAvatarColor (id : String) : String :=
  let palette : List String :=
    ["#6366f1", "#10b981", "#f59e0b", "#ec4899", "#14b8a6", "#a855f7", "#f97316", "#0ea5e9"]
  let hash := id.toList.foldl (fun h ch => (h * 31 + ch.toNat) % palette.length) 0
  palette.getD (hash % palette.length) ""

/-- The impure inputs of world normalization: `generateId('world')`,
`generateId('activity')` (one fresh value per call site, supplied by
position), and `new Date().toISOString()`. -/
structure Gen where
  worldId : String
  activityId : Nat → String
  now : String

/-- A possibly-partial collaborator record, as the defensive
`collaborator?.field ?? default` accesses of `normalizeCollaborators`
treat it. -/
structure PCollab where
  id : Option String
  name : Option String
  email : Option String
  role : Option CollaboratorRole
  avatarColor : Option String

/-- A possibly-partial activity entry, as `normalizeActivity` treats it. -/
structure PActivityEntry where
  id : Option String
  action : Option ActivityAction
  target : Option String
  context : Option String
  actorId : Option String
  actorName : Option String
  timestamp : Option String

/-- A possibly-partial page node: `normalizePageTree` defaults `favorite`
and `children`, spreading the remaining fields verbatim. -/
inductive PPage where
  | mk (id title content : String) (favorite : Option Bool) (children : Option (List PPage))

/-- A `Partial<World>` record as consumed by `normalizeWorlds`. -/
structure PWorld where
  id : Option String
  name : Option String
  ownerId : Option String
  pages : Option (List PPage)
  collaborators : Option (List PCollab)
  activity : Option (List PActivityEntry)

/-- `normalizePageTree` of the page component: recursively defaults
`favorite` to false and `children` to the empty list. -/
def normalizePageTree : List PPage → List PageNode
  | [] => []
  | ⟨i, t, c, f, none⟩ :: rest =>
    ⟨i, t, c, f.getD false, []⟩ :: normalizePageTree rest
  | ⟨i, t, c, f, some cs⟩ :: rest =>
    ⟨i, t, c, f.getD false, normalizePageTree cs⟩ :: normalizePageTree rest

/-- `Array.prototype.map((x, index) => ...)` with an explicit start index. -/
def mapIdxFrom (f : Nat → α → β) : Nat → List α → List β
  | _, [] => []
  | k, a :: l => f k a :: mapIdxFrom f (k + 1) l

/-- The per-collaborator defaulting of `normalizeCollaborators`:
missing id/name/email/avatarColor get positional or hashed defaults, a
missing role becomes Owner exactly when the defaulted id equals the declared
ownerId, else Editor. -/
def defaultCollaborator (worldId : String) (ownerId : Option String)
    (index : Nat) (c : PCollab) : WorldCollaborator :=
  let collaboratorId := c.id.getD (worldId ++ "-collaborator-" ++ toString index)
  ⟨collaboratorId,
   c.name.getD ("Collaborator " ++ toString (index + 1)),
   c.email.getD "collaborator@example.com",
   c.role.getD (if ownerId = some collaboratorId then .Owner else .Editor),
   c.avatarColor.getD (getAvatarColor collaboratorId)⟩

/-- The owner-resolution phase of `normalizeCollaborators`, operating on the
already-defaulted collaborator list.  `ownerId && ...` treats an empty-string
ownerId as falsy, and `if (!resolvedOwnerId)` treats both a missing and an
empty-string resolved id as falsy; `ownerId ?? worldId + "-owner"` is nullish,
so an empty-string ownerId is kept as the fallback id. -/
def resolveOwner (worldId worldName : String) (ownerId : Option String)
    (normalized : List WorldCollaborator) : List WorldCollaborator × String :=
  let ownerPresent : Bool := match ownerId with
    | some o => decide (¬ o = "") && normalized.any (fun c => c.id == o)
    | none => false
  let resolved : Option String :=
    if ownerPresent then ownerId
    else (normalized.find? (fun c => c.role == .Owner)).map (fun c => c.id)
  match resolved with
  | some o =>
    if o = "" then
      let fallbackId := ownerId.getD (worldId ++ "-owner")
      (⟨fallbackId, worldName ++ " Owner", "owner@example.com", .Owner,
        getAvatarColor fallbackId⟩ :: normalized, fallbackId)
    else
      (normalized.map (fun c => if c.id = o then { c with role := .Owner } else c), o)
  | none =>
    let fallbackId := ownerId.getD (worldId ++ "-owner")
    (⟨fallbackId, worldName ++ " Owner", "owner@example.com", .Owner,
      getAvatarColor fallbackId⟩ :: normalized, fallbackId)

/-- `normalizeCollaborators` of the page component: default every entry, then
resolve exactly which id owns the world. -/
def normalizeCollaborators (worldId : String) (collaborators : Option (List PCollab))
    (ownerId : Option String) (worldName : String) : List WorldCollaborator × String :=
  resolveOwner worldId worldName ownerId
    (mapIdxFrom (defaultCollaborator worldId ownerId) 0 (collaborators.getD []))

/-- The per-entry defaulting of `normalizeActivity`: `generateId('activity')`
is modeled by the positional supply `g.activityId`,
`new Date().toISOString()` by `g.now`; the
`typeof timestamp === 'string' && timestamp` guard keeps the timestamp only
when it is a nonempty string. -/
def defaultActivityEntry (g : Gen) (i : Nat) (e : PActivityEntry) : ActivityEntry :=
  ⟨e.id.getD (g.activityId i),
   e.action.getD .update,
   e.target.getD "Entry",
   some (e.context.getD ""),
   e.actorId.getD "system",
   e.actorName.getD "System",
   match e.timestamp with
   | some t => if t = "" then g.now else t
   | none => g.now⟩

/-- `normalizeActivity` of the page component: default every entry, then
truncate to the cap. -/
def normalizeActivity (g : Gen) (activity : Option (List PActivityEntry)) :
    List ActivityEntry :=
  (mapIdxFrom (defaultActivityEntry g) 0 (activity.getD [])).take ACTIVITY_LIMIT

/-- The body of `normalizeWorlds` for a single world record. -/
def normalizeWorld (g : Gen) (world : PWorld) : World :=
  let worldId := world.id.getD g.worldId
  let worldName := world.name.getD "Untitled world"
  let rc := normalizeCollaborators worldId world.collaborators world.ownerId worldName
  { id := worldId,
    name := worldName,
    pages := normalizePageTree (world.pages.getD []),
    ownerId := rc.2,
    collaborators := rc.1,
    activity := normalizeActivity g world.activity,
    description := none,
    createdAt := none,
    updatedAt := none }

/-- `normalizeWorlds` of the page component. -/
def normalizeWorlds (g : Gen) (worlds : List PWorld) : List World :=
  worlds.map (normalizeWorld g)

mutual

/-- View a normalized page node as a partial record again (every field
present), for re-normalization. -/
def toPPage : PageNode → PPage
  | ⟨i, t, c, f, cs⟩ => ⟨i, t, c, some f, some (toPForest cs)⟩

def toPForest : List PageNode → List PPage
  | [] => []
  | n :: rest => toPPage n :: toPForest rest

end

def toPCollab (c : WorldCollaborator) : PCollab :=
  ⟨some c.id, some c.name, some c.email, some c.role, some c.avatarColor⟩

def toPActivityEntry (e : ActivityEntry) : PActivityEntry :=
  ⟨some e.id, some e.action, some e.target, e.context, some e.actorId, some e.actorName,
   some e.timestamp⟩

/-- View a normalized world as a partial record again (every field present),
for re-normalization. -/
def World.toPWorld (w : World) : PWorld :=
  ⟨some w.id, some w.name, some w.ownerId, some (toPForest w.pages),
   some (w.collaborators.map toPCollab), some (w.activity.map toPActivityEntry)⟩

end WorldBuilder

namespace WorldBuilder

/-- The synthesized owner that `normalizeCollaborators` unshifts when no
owner can be resolved. -/
def synthOwner (worldName fallbackId : String) : WorldCollaborator :=
  ⟨fallbackId, worldName ++ " Owner", "owner@example.com", CollaboratorRole.Owner,
   getAvatarColor fallbackId⟩

/-- Whatever the inputs, the resolved owner id is borne by a collaborator of
role Owner in the resolved list. -/
theorem resolveOwner_owner_exists (worldId worldName : String) (ownerId : Option String)
    (normalized : List WorldCollaborator) :
    ∃ c ∈ (resolveOwner worldId worldName ownerId normalized).1,
      c.role = CollaboratorRole.Owner ∧
      c.id = (resolveOwner worldId worldName ownerId normalized).2 := by
  cases ownerId with
  | none =>
    cases hfind : normalized.find? (fun c => c.role == CollaboratorRole.Owner) with
    | none =>
      have hro : resolveOwner worldId worldName none normalized =
          (synthOwner worldName (worldId ++ "-owner") :: normalized, worldId ++ "-owner") := by
        simp [resolveOwner, hfind, synthOwner]
      rw [hro]
      exact ⟨_, List.mem_cons_self _ _, rfl, rfl⟩
    | some c0 =>
      by_cases hc0 : c0.id = ""
      · have hro : resolveOwner worldId worldName none normalized =
            (synthOwner worldName (worldId ++ "-owner") :: normalized, worldId ++ "-owner") := by
          simp [resolveOwner, hfind, hc0, synthOwner]
        rw [hro]
        exact ⟨_, List.mem_cons_self _ _, rfl, rfl⟩
      · have hro : resolveOwner worldId worldName none normalized =
            (normalized.map (fun c => if c.id = c0.id then
              { c with role := CollaboratorRole.Owner } else c), c0.id) := by
          simp [resolveOwner, hfind, hc0]
        rw [hro]
        have hmem := List.mem_of_find?_eq_some hfind
        exact ⟨{ c0 with role := CollaboratorRole.Owner },
          List.mem_map.mpr ⟨c0, hmem, by simp⟩, rfl, rfl⟩
  | some o =>
    by_cases hb : (decide (¬ o = "") && normalized.any (fun c => c.id == o)) = true
    · have hand : ¬ o = "" ∧ ∃ x ∈ normalized, x.id = o := by simpa using hb
      obtain ⟨ho, c0, hc0mem, hc0id2⟩ := hand
      have hex : ∃ x ∈ normalized, x.id = o := ⟨c0, hc0mem, hc0id2⟩
      have hro : resolveOwner worldId worldName (some o) normalized =
          (normalized.map (fun c => if c.id = o then
            { c with role := CollaboratorRole.Owner } else c), o) := by
        simp [resolveOwner, ho, hex]
      rw [hro]
      exact ⟨{ c0 with role := CollaboratorRole.Owner },
        List.mem_map.mpr ⟨c0, hc0mem, by simp [hc0id2]⟩, rfl, hc0id2⟩
    · have hb2 : ¬(¬ o = "" ∧ ∃ x ∈ normalized, x.id = o) := by simpa using hb
      cases hfind : normalized.find? (fun c => c.role == CollaboratorRole.Owner) with
      | none =>
        have hro : resolveOwner worldId worldName (some o) normalized =
            (synthOwner worldName o :: normalized, o) := by
          simp [resolveOwner, hb2, hfind, synthOwner]
        rw [hro]
        exact ⟨_, List.mem_cons_self _ _, rfl, rfl⟩
      | some c0 =>
        by_cases hc0 : c0.id = ""
        · have hro : resolveOwner worldId worldName (some o) normalized =
              (synthOwner worldName o :: normalized, o) := by
            simp [resolveOwner, hb2, hfind, hc0, synthOwner]
          rw [hro]
          exact ⟨_, List.mem_cons_self _ _, rfl, rfl⟩
        · have hro : resolveOwner worldId worldName (some o) normalized =
              (normalized.map (fun c => if c.id = c0.id then
                { c with role := CollaboratorRole.Owner } else c), c0.id) := by
            simp [resolveOwner, hb2, hfind, hc0]
          rw [hro]
          have hmem := List.mem_of_find?_eq_some hfind
          exact ⟨{ c0 with role := CollaboratorRole.Owner },
            List.mem_map.mpr ⟨c0, hmem, by simp⟩, rfl, rfl⟩

end WorldBuilder

namespace WorldBuilder

/-- C2 (amended): for every partial world record, the world produced by
`normalizeWorlds [W]` has at least one collaborator of role Owner whose id
equals the world's `ownerId` field. -/
theorem normalizeWorlds_owner_exists (g : Gen) (w : PWorld) :
    normalizeWorlds g [w] = [normalizeWorld g w] ∧
    ∃ c ∈ (normalizeWorld g w).collaborators,
      c.role = CollaboratorRole.Owner ∧ c.id = (normalizeWorld g w).ownerId := by
  refine ⟨rfl, ?_⟩
  have h := resolveOwner_owner_exists (w.id.getD g.worldId) (w.name.getD "Untitled world")
    w.ownerId (mapIdxFrom (defaultCollaborator (w.id.getD g.worldId) w.ownerId) 0
      (w.collaborators.getD []))
  simpa [normalizeWorld, normalizeCollaborators] using h

/-- The generator supply used by the concrete normalization examples. -/
def gEx : Gen := ⟨"gen-world", fun i => "gen-act-" ++ toString i, "2024-01-01T00:00:00.000Z"⟩

/-- A fully-populated collaborator record of role Owner. -/
def pcOwner (i : String) : PCollab :=
  ⟨some i, some i, some "e@x", some CollaboratorRole.Owner, some "#1"⟩

/-- A world with two distinct collaborators both already marked Owner. -/
def exTwoOwnerWorld : PWorld :=
  ⟨some "w", some "n", some "a", none, some [pcOwner "a", pcOwner "b"], none⟩

/-- C2 counterexample: normalization keeps both pre-existing Owners, so the
normalized world does not have exactly one collaborator of role Owner. -/
theorem owner_uniqueness_counterexample :
    ¬ ((normalizeWorld gEx exTwoOwnerWorld).collaborators.countP
        (fun c => c.role == CollaboratorRole.Owner) = 1) := by
  have hc : (normalizeWorld gEx exTwoOwnerWorld).collaborators =
      [⟨"a", "a", "e@x", CollaboratorRole.Owner, "#1"⟩,
       ⟨"b", "b", "e@x", CollaboratorRole.Owner, "#1"⟩] := by
    simp [normalizeWorld, normalizeCollaborators, resolveOwner, mapIdxFrom, defaultCollaborator,
      gEx, exTwoOwnerWorld, pcOwner]
  rw [hc]
  decide

end WorldBuilder

namespace WorldBuilder

/-- Re-normalizing an already-normalized page forest is the identity. -/
theorem normalizePageTree_toPForest : ∀ (l : List PageNode),
    normalizePageTree (toPForest l) = l
  | [] => by simp [toPForest, normalizePageTree]
  | n :: rest => by
    obtain ⟨i, t, c, f, cs⟩ := n
    rw [toPForest, toPPage]
    rw [show normalizePageTree (PPage.mk i t c (some f) (some (toPForest cs)) :: toPForest rest)
        = ⟨i, t, c, (some f).getD false, normalizePageTree (toPForest cs)⟩ ::
          normalizePageTree (toPForest rest) from by rw [normalizePageTree]]
    rw [normalizePageTree_toPForest cs, normalizePageTree_toPForest rest]
    simp

/-- Re-defaulting an already-defaulted collaborator is the identity. -/
theorem defaultCollaborator_toP (worldId : String) (ownerId : Option String) (i : Nat)
    (c : WorldCollaborator) : defaultCollaborator worldId ownerId i (toPCollab c) = c := rfl

theorem mapIdxFrom_toPCollab (worldId : String) (ownerId : Option String) :
    ∀ (l : List WorldCollaborator) (k : Nat),
      mapIdxFrom (defaultCollaborator worldId ownerId) k (l.map toPCollab) = l
  | [], _ => rfl
  | c :: l, k => by
    simp only [List.map_cons, mapIdxFrom, defaultCollaborator_toP,
      mapIdxFrom_toPCollab worldId ownerId l (k + 1)]

/-- Re-defaulting an already-defaulted activity entry is the identity, as
long as its context is present and its timestamp nonempty. -/
theorem defaultActivityEntry_toP (g : Gen) (i : Nat) (e : ActivityEntry)
    (hc : e.context.isSome = true) (ht : ¬ e.timestamp = "") :
    defaultActivityEntry g i (toPActivityEntry e) = e := by
  obtain ⟨eid, ac, tg, ctx, aid, an, ts⟩ := e
  cases ctx with
  | none => simp at hc
  | some s =>
    simp only [ActivityEntry.timestamp] at ht
    simp [defaultActivityEntry, toPActivityEntry, ht]

theorem mapIdxFrom_toPActivity (g : Gen) :
    ∀ (l : List ActivityEntry) (k : Nat),
      (∀ e ∈ l, e.context.isSome = true ∧ ¬ e.timestamp = "") →
      mapIdxFrom (defaultActivityEntry g) k (l.map toPActivityEntry) = l
  | [], _, _ => rfl
  | e :: l, k, h => by
    have he := h e (List.mem_cons_self _ _)
    simp only [List.map_cons, mapIdxFrom, defaultActivityEntry_toP g k e he.1 he.2,
      mapIdxFrom_toPActivity g l (k + 1) (fun x hx => h x (List.mem_cons.mpr (Or.inr hx)))]

/-- Every element of a `mapIdxFrom` image is a value of the function. -/
theorem mem_mapIdxFrom {f : Nat → α → β} :
    ∀ {l : List α} {k : Nat} {b : β}, b ∈ mapIdxFrom f k l → ∃ i a, a ∈ l ∧ b = f i a := by
  intro l
  induction l with
  | nil => intro k b hb; simp [mapIdxFrom] at hb
  | cons a l ih =>
    intro k b hb
    rw [mapIdxFrom] at hb
    rcases List.mem_cons.mp hb with h1 | h2
    · exact ⟨k, a, List.mem_cons_self _ _, h1⟩
    · obtain ⟨i, x, hx, hbx⟩ := ih h2
      exact ⟨i, x, List.mem_cons.mpr (Or.inr hx), hbx⟩

/-- Normalized activity entries have a present context and (given a nonempty
clock value) a nonempty timestamp. -/
theorem normalizeActivity_wf (g : Gen) (hnow : ¬ g.now = "")
    (a : Option (List PActivityEntry)) :
    ∀ e ∈ normalizeActivity g a, e.context.isSome = true ∧ ¬ e.timestamp = "" := by
  intro e he
  rw [normalizeActivity] at he
  obtain ⟨i, x, _, hex⟩ := mem_mapIdxFrom (List.mem_of_mem_take he)
  subst hex
  refine ⟨rfl, ?_⟩
  simp only [defaultActivityEntry]
  cases x.timestamp with
  | none => exact hnow
  | some t =>
    by_cases htt : t = ""
    · simp [htt, hnow]
    · simp [htt]

/-- Re-normalizing an already-normalized activity list is the identity. -/
theorem normalizeActivity_idem (g g2 : Gen) (hnow : ¬ g.now = "")
    (a : Option (List PActivityEntry)) :
    normalizeActivity g2 (some ((normalizeActivity g a).map toPActivityEntry)) =
      normalizeActivity g a := by
  have hlen : (normalizeActivity g a).length ≤ ACTIVITY_LIMIT := by
    rw [normalizeActivity]
    exact List.length_take_le _ _
  conv_lhs => rw [normalizeActivity]
  rw [show (some ((normalizeActivity g a).map toPActivityEntry)).getD [] =
      (normalizeActivity g a).map toPActivityEntry from rfl]
  rw [mapIdxFrom_toPActivity g2 (normalizeActivity g a) 0 (normalizeActivity_wf g hnow a)]
  exact List.take_of_length_le hlen

/-- Re-resolving the owner of an already-resolved collaborator list with a
nonempty owner id and pairwise-distinct collaborator ids is the identity. -/
theorem resolveOwner_idem (worldId worldName : String) (l : List WorldCollaborator) (o : String)
    (ho : ¬ o = "") (hex : ∃ c ∈ l, c.role = CollaboratorRole.Owner ∧ c.id = o)
    (hnd : (l.map WorldCollaborator.id).Nodup) :
    resolveOwner worldId worldName (some o) l = (l, o) := by
  obtain ⟨c0, hc0mem, hc0own, hc0id⟩ := hex
  have hexid : ∃ x ∈ l, x.id = o := ⟨c0, hc0mem, hc0id⟩
  have hro : resolveOwner worldId worldName (some o) l =
      (l.map (fun c => if c.id = o then { c with role := CollaboratorRole.Owner } else c), o) := by
    simp [resolveOwner, ho, hexid]
  rw [hro]
  have hinj := List.inj_on_of_nodup_map hnd
  have hmap : l.map (fun c => if c.id = o then
      { c with role := CollaboratorRole.Owner } else c) = l := by
    rw [List.map_congr_left, List.map_id]
    intro c hc
    by_cases hcid : c.id = o
    · have : c = c0 := hinj hc hc0mem (by rw [hcid, hc0id])
      subst this
      obtain ⟨ci, cn, ce, cr, ca⟩ := c
      simp only [WorldCollaborator.role] at hc0own
      simp [hcid, hc0own]
    · simp [hcid]
  rw [hmap]

end WorldBuilder

namespace WorldBuilder

/-- C6 (amended): normalization is idempotent for any generator supplies,
provided the clock value is nonempty and the once-normalized world has
pairwise-distinct collaborator ids and a nonempty resolved owner id. -/
theorem normalizeWorlds_idem (g g2 : Gen) (w : PWorld)
    (hnow : ¬ g.now = "")
    (hnd : ((normalizeWorld g w).collaborators.map WorldCollaborator.id).Nodup)
    (howner : ¬ (normalizeWorld g w).ownerId = "") :
    normalizeWorlds g2 (List.map World.toPWorld (normalizeWorlds g [w])) =
      normalizeWorlds g [w] := by
  show [normalizeWorld g2 (World.toPWorld (normalizeWorld g w))] = [normalizeWorld g w]
  congr 1
  have hex : ∃ c ∈ (normalizeWorld g w).collaborators,
      c.role = CollaboratorRole.Owner ∧ c.id = (normalizeWorld g w).ownerId := by
    simpa [normalizeWorld, normalizeCollaborators] using
      resolveOwner_owner_exists (w.id.getD g.worldId) (w.name.getD "Untitled world")
        w.ownerId (mapIdxFrom (defaultCollaborator (w.id.getD g.worldId) w.ownerId) 0
          (w.collaborators.getD []))
  have hrc : normalizeCollaborators (normalizeWorld g w).id
      (some ((normalizeWorld g w).collaborators.map toPCollab))
      (some (normalizeWorld g w).ownerId) (normalizeWorld g w).name =
      ((normalizeWorld g w).collaborators, (normalizeWorld g w).ownerId) := by
    rw [normalizeCollaborators]
    rw [show (some ((normalizeWorld g w).collaborators.map toPCollab)).getD [] =
        (normalizeWorld g w).collaborators.map toPCollab from rfl]
    rw [mapIdxFrom_toPCollab]
    exact resolveOwner_idem (normalizeWorld g w).id (normalizeWorld g w).name
      (normalizeWorld g w).collaborators (normalizeWorld g w).ownerId howner hex hnd
  ext1
  · rfl
  · rfl
  · show (normalizeCollaborators (normalizeWorld g w).id
        (some ((normalizeWorld g w).collaborators.map toPCollab))
        (some (normalizeWorld g w).ownerId) (normalizeWorld g w).name).2 =
      (normalizeWorld g w).ownerId
    rw [hrc]
  · show normalizePageTree (toPForest (normalizeWorld g w).pages) = (normalizeWorld g w).pages
    exact normalizePageTree_toPForest _
  · show (normalizeCollaborators (normalizeWorld g w).id
        (some ((normalizeWorld g w).collaborators.map toPCollab))
        (some (normalizeWorld g w).ownerId) (normalizeWorld g w).name).1 =
      (normalizeWorld g w).collaborators
    rw [hrc]
  · show normalizeActivity g2
        (some ((normalizeActivity g w.activity).map toPActivityEntry)) =
      normalizeActivity g w.activity
    exact normalizeActivity_idem g g2 hnow w.activity
  · rfl
  · rfl
  · rfl

/-- A fully-populated normalized-looking world record. -/
def exGoodWorld : PWorld :=
  ⟨some "w", some "n", some "o", none,
   some [⟨some "o", some "O", some "o@x", some CollaboratorRole.Owner, some "#1"⟩],
   some [⟨some "a1", some ActivityAction.create, some "T", some "ctx", some "u", some "U",
     some "2024-01-01"⟩]⟩

theorem normalizeWorlds_idem_witness :
    (¬ gEx.now = "") ∧
    ((normalizeWorld gEx exGoodWorld).collaborators.map WorldCollaborator.id).Nodup ∧
    (¬ (normalizeWorld gEx exGoodWorld).ownerId = "") ∧
    normalizeWorlds gEx (List.map World.toPWorld (normalizeWorlds gEx [exGoodWorld])) =
      normalizeWorlds gEx [exGoodWorld] := by
  have hc : (normalizeWorld gEx exGoodWorld).collaborators =
      [⟨"o", "O", "o@x", CollaboratorRole.Owner, "#1"⟩] := by
    simp [normalizeWorld, normalizeCollaborators, resolveOwner, mapIdxFrom, defaultCollaborator,
      gEx, exGoodWorld]
  have ho : (normalizeWorld gEx exGoodWorld).ownerId = "o" := by
    simp [normalizeWorld, normalizeCollaborators, resolveOwner, mapIdxFrom, defaultCollaborator,
      gEx, exGoodWorld]
  refine ⟨by decide, ?_, ?_, ?_⟩
  · rw [hc]
    decide
  · rw [ho]
    decide
  · exact normalizeWorlds_idem gEx gEx exGoodWorld (by decide)
      (by rw [hc]; decide) (by rw [ho]; decide)

/-- A collaborator whose explicit id collides with the synthesized fallback
owner id `w-owner` while carrying a non-Owner role. -/
def pcEditorCollide : PCollab :=
  ⟨some "w-owner", some "X", some "x@x", some CollaboratorRole.Editor, some "#2"⟩

/-- A world with no declared owner, no Owner-role collaborator, and a
collaborator whose id equals the fallback owner id. -/
def exCollideWorld : PWorld := ⟨some "w", some "n", none, none, some [pcEditorCollide], none⟩

theorem normalizeWorld_exCollide_eval :
    normalizeWorld gEx exCollideWorld =
      ⟨"w", "n", "w-owner", [],
       [synthOwner "n" "w-owner", ⟨"w-owner", "X", "x@x", CollaboratorRole.Editor, "#2"⟩],
       [], none, none, none⟩ := by
  have hbe : (CollaboratorRole.Editor == CollaboratorRole.Owner) = false := by decide
  simp [normalizeWorld, normalizeCollaborators, resolveOwner, mapIdxFrom, defaultCollaborator,
    normalizeActivity, normalizePageTree, gEx, exCollideWorld, pcEditorCollide, synthOwner,
    List.find?, hbe]

/-- C6 counterexample: re-normalizing the normalization of `exCollideWorld`
coerces the colliding Editor to Owner, so the second pass does not return the
first pass's output unchanged (and no fresh-id generation is involved: all
ids are present after the first pass). -/
theorem normalize_idem_counterexample :
    ¬ (normalizeWorlds gEx (List.map World.toPWorld (normalizeWorlds gEx [exCollideWorld])) =
       normalizeWorlds gEx [exCollideWorld]) := by
  intro h
  have h1 : normalizeWorlds gEx [exCollideWorld] = [normalizeWorld gEx exCollideWorld] := rfl
  rw [h1, normalizeWorld_exCollide_eval] at h
  have h2 : normalizeWorlds gEx (List.map World.toPWorld
      [(⟨"w", "n", "w-owner", [],
        [synthOwner "n" "w-owner", ⟨"w-owner", "X", "x@x", CollaboratorRole.Editor, "#2"⟩],
        [], none, none, none⟩ : World)]) =
      [normalizeWorld gEx (World.toPWorld
        (⟨"w", "n", "w-owner", [],
         [synthOwner "n" "w-owner", ⟨"w-owner", "X", "x@x", CollaboratorRole.Editor, "#2"⟩],
         [], none, none, none⟩ : World))] := rfl
  rw [h2] at h
  have h3 : normalizeWorld gEx (World.toPWorld
      (⟨"w", "n", "w-owner", [],
       [synthOwner "n" "w-owner", ⟨"w-owner", "X", "x@x", CollaboratorRole.Editor, "#2"⟩],
       [], none, none, none⟩ : World)) =
      ⟨"w", "n", "w-owner", [],
       [synthOwner "n" "w-owner", ⟨"w-owner", "X", "x@x", CollaboratorRole.Owner, "#2"⟩],
       [], none, none, none⟩ := by
    have hbe : (CollaboratorRole.Editor == CollaboratorRole.Owner) = false := by decide
    simp [normalizeWorld, normalizeCollaborators, resolveOwner, mapIdxFrom, defaultCollaborator,
      normalizeActivity, normalizePageTree, gEx, World.toPWorld, toPCollab, toPForest,
      synthOwner, List.find?, hbe]
  rw [h3] at h
  simp [synthOwner] at h

end WorldBuilder
